import Mathlib

/-!
Verification of the federated chat-server core of `bartavelle/chatserver-lab`.

The repository ships the `MessageServer` trait (`src/chatproto/src/core.rs`),
the reference test harness (`src/chatproto/src/testing.rs`) and a skeleton
implementation whose bodies are all left unimplemented
(`src/chatproto/src/solutions/sample.rs`).  The actual server behaviour is
therefore modelled here from the specification (`spec.md`), and every model
definition below is validated against the concrete vectors of `testing.rs`.

Identifiers (`ClientId`, `ServerId`) are opaque 128-bit values with equality
and order; we model both as `Nat`.  All server tables are association lists,
so that states have decidable equality and every operation is executable.
-/

namespace Chat

abbrev ClientId := Nat
abbrev ServerId := Nat
abbrev IpAddr := Nat

/-- Association-list lookup: the value bound to the first occurrence of `k`. -/
def alookup {β : Type} (k : Nat) : List (Nat × β) → Option β
  | [] => none
  | (k', v) :: rest => if k' = k then some v else alookup k rest

/-- Association-list update: replace the binding of the first occurrence of
`k`, appending a fresh binding at the end if `k` is absent. -/
def aupd {β : Type} (k : Nat) (v : β) : List (Nat × β) → List (Nat × β)
  | [] => [(k, v)]
  | (k', v') :: rest => if k' = k then (k, v) :: rest else (k', v') :: aupd k v rest

/-- List membership decided by structural recursion, so that concrete
membership propositions reduce fully inside the kernel. -/
instance (priority := 2000) decListMem {α : Type} [DecidableEq α] (a : α) :
    ∀ l : List α, Decidable (a ∈ l)
  | [] => Decidable.isFalse (fun h => by simp at h)
  | b :: rest =>
    if h : a = b then Decidable.isTrue (by simp [h])
    else
      match decListMem a rest with
      | Decidable.isTrue ht => Decidable.isTrue (List.mem_cons_of_mem b ht)
      | Decidable.isFalse hf => Decidable.isFalse (fun hm => by
          rcases List.mem_cons.mp hm with h1 | h2
          · exact h h1
          · exact hf h2)

/-- Chain adjacency decided by structural recursion, so that concrete chain
propositions reduce fully inside the kernel. -/
instance (priority := 2000) decChainPair {α : Type} {R : α → α → Prop} [DecidableRel R] :
    ∀ l : List α, Decidable (List.Chain' R l)
  | [] => Decidable.isTrue List.chain'_nil
  | [a] => Decidable.isTrue (List.chain'_singleton a)
  | a :: b :: rest =>
    if h : R a b then
      match decChainPair (b :: rest) with
      | Decidable.isTrue ht => Decidable.isTrue (List.chain'_cons.mpr ⟨h, ht⟩)
      | Decidable.isFalse hf => Decidable.isFalse fun hc => hf (List.chain'_cons.mp hc).2
    else Decidable.isFalse fun hc => h (List.chain'_cons.mp hc).1

/-- Sequenced envelope (`messages.rs`, described in spec §3). -/
structure Sequence (A : Type) where
  seqid : Nat
  src : ClientId
  content : A
deriving DecidableEq

/-- Client-originated message variants (spec §3). -/
inductive ClientMessage where
  | Text (dest : ClientId) (content : String)
  | MText (dest : List ClientId) (content : String)
deriving DecidableEq

/-- Errors surfaced to clients (spec §3, §7). -/
inductive ClientError where
  | UnknownClient
  | BoxFull (c : ClientId)
  | SequenceError
  | InternalError (s : String)
deriving DecidableEq

/-- A message fully qualified with source and destination servers (spec §3). -/
structure FullyQualifiedMessage where
  src : ClientId
  srcsrv : ServerId
  dsts : List (ClientId × ServerId)
  content : String
deriving DecidableEq

/-- Server-to-server message variants (spec §3).  The announce client map is
modelled as an association list. -/
inductive ServerMessage where
  | Announce (route : List ServerId) (clients : List (ClientId × String))
  | Message (fq : FullyQualifiedMessage)
deriving DecidableEq

/-- Per-destination reply to a client message (spec §3). -/
inductive ClientReply where
  | Delivered
  | Delayed
  | Transfer (nexthop : ServerId) (m : ServerMessage)
  | Error (e : ClientError)
deriving DecidableEq

/-- An outbound server message together with its nexthop peer (spec §3). -/
structure Outgoing where
  nexthop : ServerId
  message : FullyQualifiedMessage
deriving DecidableEq

/-- Reply to a server message (spec §3). -/
inductive ServerReply where
  | Outgoing (msgs : List Chat.Outgoing)
  | EmptyRoute
deriving DecidableEq

/-- Reply to a client poll (spec §4.5). -/
inductive ClientPollReply where
  | Message (src : ClientId) (content : String)
  | Nothing
deriving DecidableEq

/-- `MAILBOX_SIZE` from `src/chatproto/src/core.rs`. -/
def MAILBOX_SIZE : Nat := 256

/-- Modelled from the spec: the state of the server object whose
implementation is missing from `solutions/sample.rs` (all bodies are
unimplemented).  Spec §2/§3 name the tables: local roster, remote roster
(name and home server), per-client mailboxes, hold queue, route table and
sequence tracker. -/
structure ServerState where
  self : ServerId
  localRoster : List (ClientId × String)
  remoteRoster : List (ClientId × (String × ServerId))
  mailboxes : List (ClientId × List (ClientId × String))
  holdQueue : List (ClientId × List (ClientId × String))
  edges : List (ServerId × ServerId)
  routes : List (ServerId × List ServerId)
  seqs : List (ClientId × Nat)
deriving DecidableEq

/-- Fresh server state with empty tables (spec §3 lifecycles). -/
def initState (self : ServerId) : ServerState :=
  ⟨self, [], [], [], [], [], [], []⟩

def mailboxOf (st : ServerState) (c : ClientId) : List (ClientId × String) :=
  (alookup c st.mailboxes).getD []

def holdOf (st : ServerState) (c : ClientId) : List (ClientId × String) :=
  (alookup c st.holdQueue).getD []

def isLocal (st : ServerState) (c : ClientId) : Bool :=
  (alookup c st.localRoster).isSome

/-- Modelled from the spec: `register_local_client` (spec §4.1/§4.2), missing
from `solutions/sample.rs`.  The two spam verdicts are the booleans returned
by `is_ip_spammer` and `is_user_spammer`; the freshly rolled 128-bit id is
passed in as `fresh`.  Admission is the logical OR of the verdicts: on
rejection no roster entry is created, on admission `(fresh, name)` is
recorded in the local roster. -/
def registerLocalClient (ipSpam userSpam : Bool) (name : String) (fresh : ClientId)
    (st : ServerState) : Option ClientId × ServerState :=
  if ipSpam || userSpam then (none, st)
  else (some fresh, { st with localRoster := st.localRoster ++ [(fresh, name)] })

/-- Modelled from the spec: `list_users` (spec §4.2) returns the union of the
local and remote rosters. -/
def listUsers (st : ServerState) : List (ClientId × String) :=
  st.localRoster ++ st.remoteRoster.map (fun p => (p.1, p.2.1))

/-- Modelled from the spec: `handle_sequenced_message` (spec §4.3), missing
from `solutions/sample.rs`.  Unknown senders get `UnknownClient`; a seqid not
strictly above the last accepted one (default 0) gets `SequenceError`. -/
def handleSequencedMessage {A : Type} (st : ServerState) (sq : Sequence A) :
    Except ClientError A × ServerState :=
  if isLocal st sq.src then
    let last := (alookup sq.src st.seqs).getD 0
    if sq.seqid ≤ last then (Except.error ClientError.SequenceError, st)
    else (Except.ok sq.content, { st with seqs := aupd sq.src sq.seqid st.seqs })
  else (Except.error ClientError.UnknownClient, st)

/-- Modelled from the spec: dispatch of one destination of a client message
(spec §4.4), missing from `solutions/sample.rs`.  Local destinations are
delivered into the bounded mailbox, known remote destinations become a
`Transfer` via the route table, unknown destinations are held and `Delayed`. -/
def handleClientMessageSingle (st : ServerState) (src : ClientId) (d : ClientId)
    (content : String) : ClientReply × ServerState :=
  if isLocal st d then
    let mb := mailboxOf st d
    if MAILBOX_SIZE ≤ mb.length then (ClientReply.Error (ClientError.BoxFull d), st)
    else (ClientReply.Delivered,
      { st with mailboxes := aupd d (mb ++ [(src, content)]) st.mailboxes })
  else
    match alookup d st.remoteRoster with
    | some (_, h) =>
      match alookup h st.routes with
      | some (_ :: nexthop :: _) =>
        (ClientReply.Transfer nexthop
          (ServerMessage.Message ⟨src, st.self, [(d, h)], content⟩), st)
      | _ => (ClientReply.Error (ClientError.InternalError "no route"), st)
    | none =>
      (ClientReply.Delayed,
        { st with holdQueue := aupd d (holdOf st d ++ [(src, content)]) st.holdQueue })

/-- Modelled from the spec: fold of single-destination dispatch over a
destination sequence, one reply per destination in input order (spec §4.4). -/
def handleDests (src : ClientId) (content : String) :
    List ClientId → ServerState → List ClientReply × ServerState
  | [], st => ([], st)
  | d :: ds, st =>
    let r := handleClientMessageSingle st src d content
    let rs := handleDests src content ds r.2
    (r.1 :: rs.1, rs.2)

/-- Modelled from the spec: `handle_client_message` (spec §4.4), missing from
`solutions/sample.rs`.  `Text` is a one-element destination sequence, `MText`
fans out over its destination list. -/
def handleClientMessage (st : ServerState) (src : ClientId) (msg : ClientMessage) :
    List ClientReply × ServerState :=
  match msg with
  | ClientMessage.Text d content => handleDests src content [d] st
  | ClientMessage.MText ds content => handleDests src content ds st

/-- Modelled from the spec: `client_poll` (spec §4.5), missing from
`solutions/sample.rs`.  Pops the oldest mailbox entry of a local client;
`Nothing` on an empty mailbox or a non-local client. -/
def clientPoll (st : ServerState) (c : ClientId) : ClientPollReply × ServerState :=
  if isLocal st c then
    match alookup c st.mailboxes with
    | some ((src, content) :: rest) =>
      (ClientPollReply.Message src content, { st with mailboxes := aupd c rest st.mailboxes })
    | _ => (ClientPollReply.Nothing, st)
  else (ClientPollReply.Nothing, st)

/-- Replies of `n` successive polls for client `c`. -/
def pollSeq (st : ServerState) (c : ClientId) : Nat → List ClientPollReply
  | 0 => []
  | n + 1 =>
    let r := clientPoll st c
    r.1 :: pollSeq r.2 c n

/-- Keep the strictly shorter of incumbent and candidate path; ties keep the
incumbent.  This is the per-entry update rule as spec §4.6 words it; it is
kept for comparison against the repository's routing tests. -/
def shorterOf (inc : Option (List ServerId)) (cand : List ServerId) : List ServerId :=
  match inc with
  | none => cand
  | some p => if cand.length < p.length then cand else p

/-- Index of the first occurrence of `s`, as used by spec §4.6's candidate
formula. -/
def idxOf (s : Nat) : List Nat → Nat
  | [] => 0
  | x :: rest => if x = s then 0 else idxOf s rest + 1

/-- Append an element unless already present. -/
def insertIfAbsent {α : Type} [DecidableEq α] (x : α) (l : List α) : List α :=
  if x ∈ l then l else l ++ [x]

/-- Append all new elements of `xs` to `l`, keeping `l` duplicate-free when it
was. -/
def addAll {α : Type} [DecidableEq α] (xs l : List α) : List α :=
  xs.foldl (fun acc x => insertIfAbsent x acc) l

/-- Consecutive pairs of a vertex list. -/
def pathEdges : List ServerId → List (ServerId × ServerId)
  | [] => []
  | [_] => []
  | a :: b :: rest => (a, b) :: pathEdges (b :: rest)

/-- Edges learned from one announcement: the local server sits after the last
element of `route`, so the announced chain is `self :: reverse route`, taken
in both directions (spec §4.6). -/
def announceEdges (self : ServerId) (route : List ServerId) : List (ServerId × ServerId) :=
  let p := pathEdges (self :: route.reverse)
  p ++ p.map (fun e => (e.2, e.1))

/-- One relaxation of a single directed edge: extend the known path to the
edge's source by one hop when that strictly improves the entry of its
target. -/
def relaxEdge (t : List (ServerId × List ServerId)) (e : ServerId × ServerId) :
    List (ServerId × List ServerId) :=
  match alookup e.1 t with
  | none => t
  | some p =>
    match alookup e.2 t with
    | none => aupd e.2 (p ++ [e.2]) t
    | some q => if p.length + 1 < q.length then aupd e.2 (p ++ [e.2]) t else t

/-- Relax every known edge once, in order. -/
def relaxRound (edges : List (ServerId × ServerId))
    (t : List (ServerId × List ServerId)) : List (ServerId × List ServerId) :=
  edges.foldl relaxEdge t

/-- Iterated relaxation rounds. -/
def relaxRounds (edges : List (ServerId × ServerId)) :
    Nat → List (ServerId × List ServerId) → List (ServerId × List ServerId)
  | 0, t => t
  | n + 1, t => relaxRounds edges n (relaxRound edges t)

/-- Modelled from the spec and the routing tests: the route table over the
accumulated announce topology.  `routing_test2` in
`src/chatproto/src/testing.rs` requires genuinely shortest routes spliced
through edges of earlier announcements, so the table is recomputed from the
edge set by Bellman-Ford-style relaxation (enough rounds to reach every
duplicate-free path). -/
def bfRoutes (self : ServerId) (edges : List (ServerId × ServerId)) :
    List (ServerId × List ServerId) :=
  relaxRounds edges (edges.length + 1) (aupd self [self] [])

/-- Modelled from the spec: remote-roster update on an announcement
(spec §4.6): every announced client maps to its name and home server
`route[0]`. -/
def applyClients (home : ServerId) :
    List (ClientId × String) → List (ClientId × (String × ServerId)) →
    List (ClientId × (String × ServerId))
  | [], roster => roster
  | (cid, name) :: rest, roster => applyClients home rest (aupd cid (name, home) roster)

/-- Modelled from the spec: hold-queue drain on an announcement (spec §4.7).
For every announced client, its held messages become `Outgoing` entries in
original enqueue order, routed to the home server via the route table. -/
def drainAll (home : ServerId) :
    List (ClientId × String) → ServerState → List Outgoing × ServerState
  | [], st => ([], st)
  | (cid, _) :: rest, st =>
    let held := holdOf st cid
    let st' := { st with holdQueue := aupd cid [] st.holdQueue }
    let outs : List Outgoing :=
      match alookup home st.routes with
      | some (_ :: nh :: _) =>
        held.map (fun p => ⟨nh, ⟨p.1, st.self, [(cid, home)], p.2⟩⟩)
      | _ => []
    let r := drainAll home rest st'
    (outs ++ r.1, r.2)

/-- Modelled from the spec: local delivery of an in-transit server message
(spec §4.7): enqueue subject to `MAILBOX_SIZE`, overflow dropped. -/
def deliverLocal (st : ServerState) (cid src : ClientId) (content : String) : ServerState :=
  let mb := mailboxOf st cid
  if MAILBOX_SIZE ≤ mb.length then st
  else { st with mailboxes := aupd cid (mb ++ [(src, content)]) st.mailboxes }

/-- Modelled from the spec: destination handling of an in-transit
`Message(fq)` (spec §4.7): local destinations are delivered, known remote
destinations forwarded via the route table, unknown destinations dropped. -/
def fqDsts (src : ClientId) (srcsrv : ServerId) (content : String) :
    List (ClientId × ServerId) → ServerState → List Outgoing × ServerState
  | [], st => ([], st)
  | (cid, home) :: rest, st =>
    if isLocal st cid then
      fqDsts src srcsrv content rest (deliverLocal st cid src content)
    else if (alookup cid st.remoteRoster).isSome then
      let outs : List Outgoing :=
        match alookup home st.routes with
        | some (_ :: nh :: _) => [⟨nh, ⟨src, srcsrv, [(cid, home)], content⟩⟩]
        | _ => []
      let r := fqDsts src srcsrv content rest st
      (outs ++ r.1, r.2)
    else fqDsts src srcsrv content rest st

/-- Modelled from the spec: `handle_server_message` (spec §4.7), missing from
`solutions/sample.rs`.  An empty announce route returns `EmptyRoute` with no
state change; otherwise routes and remote roster are updated and the hold
queue drained.  An in-transit message is delivered or forwarded per
destination. -/
def handleServerMessage (st : ServerState) (msg : ServerMessage) :
    ServerReply × ServerState :=
  match msg with
  | ServerMessage.Announce route clients =>
    match route with
    | [] => (ServerReply.EmptyRoute, st)
    | home :: _ =>
      let edges1 := addAll (announceEdges st.self route) st.edges
      let st1 := { st with
        edges := edges1,
        routes := bfRoutes st.self edges1,
        remoteRoster := applyClients home clients st.remoteRoster }
      let r := drainAll home clients st1
      (ServerReply.Outgoing r.1, r.2)
  | ServerMessage.Message fq =>
    let r := fqDsts fq.src fq.srcsrv fq.content fq.dsts st
    (ServerReply.Outgoing r.1, r.2)

/-- Modelled from the spec: `route_to` (spec §4.6) returns the stored best
path to a destination, absent if unknown. -/
def routeTo (st : ServerState) (d : ServerId) : Option (List ServerId) :=
  alookup d st.routes

/-- One public operation of the server interface, used to range over
reachable states. -/
inductive Op where
  | register (ipSpam userSpam : Bool) (name : String) (fresh : ClientId)
  | clientMsg (src : ClientId) (msg : ClientMessage)
  | poll (c : ClientId)
  | seqMsg (sq : Sequence Nat)
  | serverMsg (m : ServerMessage)

/-- State transition of one public operation. -/
def applyOp (st : ServerState) : Op → ServerState
  | Op.register ci cu name fresh => (registerLocalClient ci cu name fresh st).2
  | Op.clientMsg src msg => (handleClientMessage st src msg).2
  | Op.poll c => (clientPoll st c).2
  | Op.seqMsg sq => (handleSequencedMessage st sq).2
  | Op.serverMsg m => (handleServerMessage st m).2

/-- The state reached from a fresh server after a sequence of operations. -/
def runOps (self : ServerId) (ops : List Op) : ServerState :=
  ops.foldl applyOp (initState self)

/-- One registration request: the two spam verdicts, the screen name and the
freshly generated id. -/
structure RegInput where
  ipSpam : Bool
  userSpam : Bool
  name : String
  fresh : ClientId

/-- A batch of registrations, folded left to right. -/
def registerMany : List RegInput → ServerState → ServerState
  | [], st => st
  | r :: rest, st => registerMany rest (registerLocalClient r.ipSpam r.userSpam r.name r.fresh st).2

/-- A path from `a` to `b` whose consecutive hops are all edges. -/
def isWalk (edges : List (ServerId × ServerId)) (a b : ServerId) (w : List ServerId) : Prop :=
  w.head? = some a ∧ w.getLast? = some b ∧ List.Chain' (fun u v => (u, v) ∈ edges) w

instance (edges : List (ServerId × ServerId)) (a b : ServerId) (w : List ServerId) :
    Decidable (isWalk edges a b w) :=
  inferInstanceAs (Decidable (w.head? = some a ∧ w.getLast? = some b ∧
    List.Chain' (fun u v => (u, v) ∈ edges) w))

/-- Every stored route is a path from self to its key over the accumulated
topology (spec §3 route-table invariants). -/
def routesSound (st : ServerState) : Prop :=
  ∀ e ∈ st.routes, isWalk st.edges st.self e.1 e.2

/-- Every mailbox in a mailbox table is within the capacity bound. -/
def mailboxListInv (l : List (ClientId × List (ClientId × String))) : Prop :=
  ∀ c mb, alookup c l = some mb → mb.length ≤ MAILBOX_SIZE

/-- Spec §8 invariant 1: every client's mailbox holds at most `MAILBOX_SIZE`
entries. -/
def mailboxInv (st : ServerState) : Prop :=
  mailboxListInv st.mailboxes

/-- Two states agree on everything destination classification and transfer
construction read: identity, rosters and routes. -/
def classEq (st st' : ServerState) : Prop :=
  st'.self = st.self ∧ st'.localRoster = st.localRoster
    ∧ st'.remoteRoster = st.remoteRoster ∧ st'.routes = st.routes

instance (st : ServerState) : Decidable (routesSound st) :=
  inferInstanceAs (Decidable (∀ e ∈ st.routes, isWalk st.edges st.self e.1 e.2))

/-!  Theorems.  First the association-list toolbox, then lemmas about each
operation, then one theorem per specification claim with its witness. -/

theorem alookup_aupd {β : Type} (k₀ k : Nat) (v₀ : β) (l : List (Nat × β)) :
    alookup k (aupd k₀ v₀ l) = if k₀ = k then some v₀ else alookup k l := by
  induction l with
  | nil =>
    by_cases h : k₀ = k <;> simp [aupd, alookup, h]
  | cons p rest ih =>
    obtain ⟨k', v'⟩ := p
    by_cases h1 : k' = k₀
    · subst h1
      by_cases h2 : k' = k <;> simp [aupd, alookup, h2]
    · by_cases h2 : k' = k
      · subst h2
        have hk : ¬ k₀ = k' := fun h => h1 h.symm
        simp [aupd, alookup, h1, hk]
      · simp [aupd, alookup, h1, h2, ih]

theorem aupd_self {β : Type} (k : Nat) (v : β) (l : List (Nat × β))
    (h : alookup k l = some v) : aupd k v l = l := by
  induction l with
  | nil => simp [alookup] at h
  | cons p rest ih =>
    obtain ⟨k', v'⟩ := p
    by_cases hk : k' = k
    · subst hk
      simp [alookup] at h
      simp [aupd, h]
    · simp [alookup, hk] at h
      simp [aupd, hk, ih h]

theorem alookup_append {β : Type} (k : Nat) (l1 l2 : List (Nat × β)) :
    alookup k (l1 ++ l2) =
      match alookup k l1 with
      | some v => some v
      | none => alookup k l2 := by
  induction l1 with
  | nil => simp [alookup]
  | cons p rest ih =>
    obtain ⟨k', v'⟩ := p
    by_cases h : k' = k <;> simp [alookup, h, ih]

theorem alookup_mem {β : Type} (k : Nat) (l : List (Nat × β)) (v : β)
    (h : alookup k l = some v) : (k, v) ∈ l := by
  induction l with
  | nil => simp [alookup] at h
  | cons p rest ih =>
    obtain ⟨k', v'⟩ := p
    by_cases hk : k' = k
    · subst hk
      simp [alookup] at h
      simp [h]
    · simp [alookup, hk] at h
      simp [ih h]

/-- C10: an Announce whose route is the empty list is answered with
`EmptyRoute` and the state — every table — is returned unchanged. -/
theorem C10_empty_route_inert (st : ServerState) (clients : List (ClientId × String)) :
    handleServerMessage st (ServerMessage.Announce [] clients) = (ServerReply.EmptyRoute, st) := rfl

/-- C4: a sequenced message from a sender outside the local roster is answered
`UnknownClient`; for a local sender with last accepted seqid `last` (0 if
none) the message is rejected with `SequenceError` exactly when
`seqid ≤ last`, and otherwise `last` becomes `seqid` and the content is
returned, so gaps are permitted and only strict increase is required. -/
theorem C4_sequencing {A : Type} (st : ServerState) (sq : Sequence A) :
    (alookup sq.src st.localRoster = none →
      handleSequencedMessage st sq = (Except.error ClientError.UnknownClient, st))
    ∧ (∀ nm, alookup sq.src st.localRoster = some nm →
        (sq.seqid ≤ (alookup sq.src st.seqs).getD 0 →
          handleSequencedMessage st sq = (Except.error ClientError.SequenceError, st))
        ∧ ((alookup sq.src st.seqs).getD 0 < sq.seqid →
          handleSequencedMessage st sq =
            (Except.ok sq.content, { st with seqs := aupd sq.src sq.seqid st.seqs }))) := by
  refine ⟨fun h => ?_, fun nm h => ⟨fun hle => ?_, fun hlt => ?_⟩⟩
  · simp [handleSequencedMessage, isLocal, h]
  · simp [handleSequencedMessage, isLocal, h, hle]
  · simp [handleSequencedMessage, isLocal, h, Nat.not_le.mpr hlt, Nat.not_le_of_lt hlt]

/-- Witness for C4 at a concrete state: sender 1 is local with last seqid 5,
so seqid 5 is rejected and seqid 7 is accepted; sender 9 is unknown. -/
theorem C4_sequencing_witness :
    handleSequencedMessage ⟨0, [(1, "u")], [], [], [], [], [], [(1, 5)]⟩
        (⟨5, 1, 42⟩ : Sequence Nat) =
      (Except.error ClientError.SequenceError, ⟨0, [(1, "u")], [], [], [], [], [], [(1, 5)]⟩)
    ∧ handleSequencedMessage ⟨0, [(1, "u")], [], [], [], [], [], [(1, 5)]⟩
        (⟨7, 1, 42⟩ : Sequence Nat) =
      (Except.ok 42, ⟨0, [(1, "u")], [], [], [], [], [], [(1, 7)]⟩)
    ∧ handleSequencedMessage ⟨0, [(1, "u")], [], [], [], [], [], [(1, 5)]⟩
        (⟨1, 9, 42⟩ : Sequence Nat) =
      (Except.error ClientError.UnknownClient, ⟨0, [(1, "u")], [], [], [], [], [], [(1, 5)]⟩) := by
  refine ⟨?_, ?_, ?_⟩
  · exact ((C4_sequencing _ _).2 "u" (by decide)).1 (by decide)
  · have h := ((C4_sequencing (A := Nat) ⟨0, [(1, "u")], [], [], [], [], [], [(1, 5)]⟩
      ⟨7, 1, 42⟩).2 "u" (by decide)).2 (by decide)
    simpa [aupd] using h
  · exact (C4_sequencing _ _).1 (by decide)

theorem handleDests_length (src : ClientId) (content : String) (ds : List ClientId) :
    ∀ st, ((handleDests src content ds st).1).length = ds.length := by
  induction ds with
  | nil => intro st; simp [handleDests]
  | cons d rest ih => intro st; simp [handleDests, ih]

theorem single_error_inert (st : ServerState) (src d : ClientId) (c : String)
    (e : ClientError) (h : (handleClientMessageSingle st src d c).1 = ClientReply.Error e) :
    (handleClientMessageSingle st src d c).2 = st := by
  unfold handleClientMessageSingle at h ⊢
  by_cases hl : isLocal st d
  · by_cases hf : MAILBOX_SIZE ≤ (mailboxOf st d).length
    · simp [hl, hf]
    · simp [hl, hf] at h
  · simp only [hl, Bool.false_eq_true, if_false] at h ⊢
    cases hr : alookup d st.remoteRoster with
    | none => simp [hr] at h
    | some p =>
      obtain ⟨nm, hsrv⟩ := p
      simp only [hr] at h ⊢
      cases hroute : alookup hsrv st.routes with
      | none => simp [hroute] at h ⊢
      | some path =>
        match path with
        | [] => simp [hroute]
        | [x] => simp [hroute]
        | x :: y :: rest => simp [hroute] at h

/-- C7: the reply vector of `handle_client_message` has exactly one entry per
destination in input order (`Text` is a singleton, `MText` has one entry per
listed destination), `MText` is the fan-out of `Text` over its destinations,
and a destination that fails leaves the state untouched, so no destination's
failure affects any other destination's reply. -/
theorem C7_reply_vector_shape :
    (∀ (st : ServerState) (src : ClientId) (ds : List ClientId) (c : String),
      ((handleClientMessage st src (ClientMessage.MText ds c)).1).length = ds.length)
    ∧ (∀ (st : ServerState) (src d : ClientId) (c : String),
      ((handleClientMessage st src (ClientMessage.Text d c)).1).length = 1)
    ∧ (∀ (st : ServerState) (src d : ClientId) (ds : List ClientId) (c : String),
      handleClientMessage st src (ClientMessage.MText (d :: ds) c) =
        ((handleClientMessage st src (ClientMessage.Text d c)).1 ++
          (handleClientMessage (handleClientMessage st src (ClientMessage.Text d c)).2 src
            (ClientMessage.MText ds c)).1,
         (handleClientMessage (handleClientMessage st src (ClientMessage.Text d c)).2 src
           (ClientMessage.MText ds c)).2))
    ∧ (∀ (st : ServerState) (src : ClientId) (c : String),
      handleClientMessage st src (ClientMessage.MText [] c) = ([], st))
    ∧ (∀ (st : ServerState) (src d : ClientId) (c : String) (e : ClientError),
      (handleClientMessageSingle st src d c).1 = ClientReply.Error e →
      (handleClientMessageSingle st src d c).2 = st) := by
  refine ⟨fun st src ds c => handleDests_length src c ds st,
    fun st src d c => ?_, fun st src d ds c => ?_, fun st src c => rfl,
    fun st src d c e h => single_error_inert st src d c e h⟩
  · simp [handleClientMessage, handleDests]
  · simp [handleClientMessage, handleDests]

set_option maxRecDepth 4000 in
/-- Witness for C7 at a concrete state: a two-destination MText produces two
replies, and delivery to a full mailbox fails without changing the state. -/
theorem C7_reply_vector_shape_witness :
    ((handleClientMessage ⟨0, [(2, "u")], [], [(2, List.replicate 256 (1, "x"))], [], [], [], []⟩
        1 (ClientMessage.MText [2, 9] "y")).1).length = 2
    ∧ (handleClientMessageSingle
        ⟨0, [(2, "u")], [], [(2, List.replicate 256 (1, "x"))], [], [], [], []⟩ 1 2 "y").2 =
      ⟨0, [(2, "u")], [], [(2, List.replicate 256 (1, "x"))], [], [], [], []⟩ := by
  constructor
  · exact C7_reply_vector_shape.1 _ 1 [2, 9] "y"
  · exact C7_reply_vector_shape.2.2.2.2 _ 1 2 "y" (ClientError.BoxFull 2) (by decide)

theorem pollSeq_drain (msgs : List (ClientId × String)) :
    ∀ (st : ServerState) (c : ClientId), isLocal st c = true → mailboxOf st c = msgs →
      pollSeq st c (msgs.length + 1) =
        msgs.map (fun p => ClientPollReply.Message p.1 p.2) ++ [ClientPollReply.Nothing] := by
  induction msgs with
  | nil =>
    intro st c hl hm
    cases hq : alookup c st.mailboxes with
    | none => simp [pollSeq, clientPoll, hl, hq]
    | some mb =>
      cases mb with
      | nil => simp [pollSeq, clientPoll, hl, hq]
      | cons hd tl =>
        rw [mailboxOf, hq] at hm
        simp at hm
  | cons hd tl ih =>
    intro st c hl hm
    obtain ⟨s0, c0⟩ := hd
    have hq : alookup c st.mailboxes = some ((s0, c0) :: tl) := by
      cases hqq : alookup c st.mailboxes with
      | none => rw [mailboxOf, hqq] at hm; simp at hm
      | some mb => rw [mailboxOf, hqq] at hm; simp at hm; rw [hm]
    have hstep : pollSeq st c (tl.length + 1 + 1) =
        ClientPollReply.Message s0 c0 ::
          pollSeq { st with mailboxes := aupd c tl st.mailboxes } c (tl.length + 1) := by
      simp [pollSeq, clientPoll, hl, hq]
    have hlocal : isLocal { st with mailboxes := aupd c tl st.mailboxes } c = true := hl
    have hmb : mailboxOf { st with mailboxes := aupd c tl st.mailboxes } c = tl := by
      simp [mailboxOf, alookup_aupd]
    simp only [List.length_cons]
    rw [hstep, ih _ c hlocal hmb]
    simp

theorem single_delivered_append (st : ServerState) (src c : ClientId) (content : String)
    (h : (handleClientMessageSingle st src c content).1 = ClientReply.Delivered) :
    mailboxOf (handleClientMessageSingle st src c content).2 c =
      mailboxOf st c ++ [(src, content)] := by
  unfold handleClientMessageSingle at h ⊢
  by_cases hl : isLocal st c
  · by_cases hf : MAILBOX_SIZE ≤ (mailboxOf st c).length
    · simp [hl, hf] at h
    · simp only [mailboxOf] at hf ⊢
      simp [hl, hf, alookup_aupd]
  · simp only [hl, Bool.false_eq_true, if_false] at h
    cases hr : alookup c st.remoteRoster with
    | none => simp [hr] at h
    | some p =>
      obtain ⟨nm, hsrv⟩ := p
      simp only [hr] at h
      cases hroute : alookup hsrv st.routes with
      | none => simp [hroute] at h
      | some path =>
        match path with
        | [] => simp [hroute] at h
        | [x] => simp [hroute] at h
        | x :: y :: rest => simp [hroute] at h

/-- C6: successive polls of a local client return its mailbox content in
exactly enqueue order, one oldest entry per call as `Message{src, content}`,
followed by `Nothing` once the mailbox is empty; polling a non-local client
returns `Nothing` without state change; and a successful delivery appends at
the tail of the mailbox, so polling order is delivery order. -/
theorem C6_poll_fifo :
    (∀ (st : ServerState) (c : ClientId) (msgs : List (ClientId × String)),
      isLocal st c = true → mailboxOf st c = msgs →
      pollSeq st c (msgs.length + 1) =
        msgs.map (fun p => ClientPollReply.Message p.1 p.2) ++ [ClientPollReply.Nothing])
    ∧ (∀ (st : ServerState) (c : ClientId), isLocal st c = false →
      clientPoll st c = (ClientPollReply.Nothing, st))
    ∧ (∀ (st : ServerState) (src c : ClientId) (content : String),
      (handleClientMessageSingle st src c content).1 = ClientReply.Delivered →
      mailboxOf (handleClientMessageSingle st src c content).2 c =
        mailboxOf st c ++ [(src, content)]) := by
  refine ⟨fun st c msgs hl hm => pollSeq_drain msgs st c hl hm,
    fun st c hl => ?_,
    fun st src c content h => single_delivered_append st src c content h⟩
  simp [clientPoll, hl]

/-- Witness for C6 at a concrete state: a mailbox holding two messages is
polled in enqueue order, then `Nothing`; polling the non-local client 9
yields `Nothing`; delivering to client 2 appends at the tail. -/
theorem C6_poll_fifo_witness :
    pollSeq ⟨0, [(2, "u")], [], [(2, [(1, "a"), (3, "b")])], [], [], [], []⟩ 2 3 =
      [ClientPollReply.Message 1 "a", ClientPollReply.Message 3 "b", ClientPollReply.Nothing]
    ∧ clientPoll ⟨0, [(2, "u")], [], [(2, [(1, "a"), (3, "b")])], [], [], [], []⟩ 9 =
      (ClientPollReply.Nothing, ⟨0, [(2, "u")], [], [(2, [(1, "a"), (3, "b")])], [], [], [], []⟩)
    ∧ mailboxOf (handleClientMessageSingle
        ⟨0, [(2, "u")], [], [(2, [(1, "a"), (3, "b")])], [], [], [], []⟩ 5 2 "c").2 2 =
      [(1, "a"), (3, "b"), (5, "c")] := by
  refine ⟨?_, ?_, ?_⟩
  · have h := C6_poll_fifo.1 ⟨0, [(2, "u")], [], [(2, [(1, "a"), (3, "b")])], [], [], [], []⟩
      2 [(1, "a"), (3, "b")] (by decide) (by decide)
    simpa using h
  · exact C6_poll_fifo.2.1 _ 9 (by decide)
  · have h := C6_poll_fifo.2.2 ⟨0, [(2, "u")], [], [(2, [(1, "a"), (3, "b")])], [], [], [], []⟩
      5 2 "c" (by decide)
    simpa using h

theorem registerMany_roster (regs : List RegInput) :
    ∀ st : ServerState, (∀ r ∈ regs, r.ipSpam = false ∧ r.userSpam = false) →
      (registerMany regs st).localRoster =
        st.localRoster ++ regs.map (fun r => (r.fresh, r.name))
      ∧ (registerMany regs st).remoteRoster = st.remoteRoster := by
  induction regs with
  | nil => intro st _; simp [registerMany]
  | cons r rest ih =>
    intro st hall
    have hr := hall r (by simp)
    have hrest : ∀ x ∈ rest, x.ipSpam = false ∧ x.userSpam = false :=
      fun x hx => hall x (by simp [hx])
    have hreg : (registerLocalClient r.ipSpam r.userSpam r.name r.fresh st).2 =
        { st with localRoster := st.localRoster ++ [(r.fresh, r.name)] } := by
      simp [registerLocalClient, hr.1, hr.2]
    rw [registerMany, hreg]
    obtain ⟨h1, h2⟩ := ih { st with localRoster := st.localRoster ++ [(r.fresh, r.name)] } hrest
    refine ⟨?_, h2⟩
    rw [h1]
    simp

/-- C8: registration is refused exactly when at least one spam verdict is
true (the admission result is the OR of the two verdicts) and a refusal
creates no roster entry; an admitted registration records the fresh id under
the given name, so a batch of admitted registrations with distinct fresh ids
yields exactly those distinct ids, and list_users returns exactly those
(id, name) pairs plus the remote-roster entries. -/
theorem C8_registration :
    (∀ (ci cu : Bool) (nm : String) (id : ClientId) (st : ServerState),
      (registerLocalClient ci cu nm id st).1 = none ↔ (ci || cu) = true)
    ∧ (∀ (ci cu : Bool) (nm : String) (id : ClientId) (st : ServerState),
      (ci || cu) = true → (registerLocalClient ci cu nm id st).2 = st)
    ∧ (∀ (ci cu : Bool) (nm : String) (id : ClientId) (st : ServerState),
      (ci || cu) = false →
      registerLocalClient ci cu nm id st =
        (some id, { st with localRoster := st.localRoster ++ [(id, nm)] }))
    ∧ (∀ (regs : List RegInput) (st : ServerState),
      (∀ r ∈ regs, r.ipSpam = false ∧ r.userSpam = false) →
      listUsers (registerMany regs st) =
        st.localRoster ++ regs.map (fun r => (r.fresh, r.name)) ++
          st.remoteRoster.map (fun p => (p.1, p.2.1)))
    ∧ (∀ (regs : List RegInput) (st : ServerState),
      (∀ r ∈ regs, r.ipSpam = false ∧ r.userSpam = false) →
      (st.localRoster.map Prod.fst ++ regs.map RegInput.fresh).Nodup →
      ((registerMany regs st).localRoster.map Prod.fst).Nodup) := by
  refine ⟨fun ci cu nm id st => ?_, fun ci cu nm id st h => ?_, fun ci cu nm id st h => ?_,
    fun regs st hall => ?_, fun regs st hall hnd => ?_⟩
  · cases ci <;> cases cu <;> simp [registerLocalClient]
  · simp [registerLocalClient, h]
  · simp [registerLocalClient, h]
  · obtain ⟨h1, h2⟩ := registerMany_roster regs st hall
    rw [listUsers, h1, h2, List.append_assoc]
  · obtain ⟨h1, _⟩ := registerMany_roster regs st hall
    rw [h1, List.map_append, List.map_map]
    exact hnd

/-- Witness for C8: both-spammer and ip-spammer inputs are refused without a
roster entry; two admitted registrations with fresh ids 1 and 2 produce
exactly those users. -/
theorem C8_registration_witness :
    (registerLocalClient true true "user1" 7 (initState 0)).1 = none
    ∧ (registerLocalClient true false "user1" 7 (initState 0)).2 = initState 0
    ∧ listUsers (registerMany [⟨false, false, "a", 1⟩, ⟨false, false, "b", 2⟩] (initState 0)) =
        [(1, "a"), (2, "b")]
    ∧ ((registerMany [⟨false, false, "a", 1⟩, ⟨false, false, "b", 2⟩]
        (initState 0)).localRoster.map Prod.fst).Nodup := by
  refine ⟨?_, ?_, ?_, ?_⟩
  · exact (C8_registration.1 true true "user1" 7 (initState 0)).mpr (by decide)
  · exact C8_registration.2.1 true false "user1" 7 (initState 0) (by decide)
  · have h := C8_registration.2.2.2.1 [⟨false, false, "a", 1⟩, ⟨false, false, "b", 2⟩]
      (initState 0) (by decide)
    simpa [initState] using h
  · exact C8_registration.2.2.2.2 [⟨false, false, "a", 1⟩, ⟨false, false, "b", 2⟩]
      (initState 0) (by decide) (by decide)

theorem mailboxListInv_aupd {l : List (ClientId × List (ClientId × String))}
    {c : ClientId} {v : List (ClientId × String)}
    (h : mailboxListInv l) (hv : v.length ≤ MAILBOX_SIZE) : mailboxListInv (aupd c v l) := by
  intro c' mb hmb
  rw [alookup_aupd] at hmb
  by_cases hc : c = c'
  · simp [hc] at hmb; subst hmb; exact hv
  · simp [hc] at hmb; exact h c' mb hmb

theorem mailbox_append_le {st : ServerState} {d : ClientId}
    (hf : ¬ MAILBOX_SIZE ≤ (mailboxOf st d).length) (p : ClientId × String) :
    (mailboxOf st d ++ [p]).length ≤ MAILBOX_SIZE := by
  simp only [List.length_append, List.length_cons, List.length_nil]
  omega

theorem single_mailboxInv (st : ServerState) (src d : ClientId) (c : String)
    (h : mailboxInv st) : mailboxInv (handleClientMessageSingle st src d c).2 := by
  unfold handleClientMessageSingle
  by_cases hl : isLocal st d
  · by_cases hf : MAILBOX_SIZE ≤ (mailboxOf st d).length
    · simpa [hl, hf] using h
    · simp only [hl, hf, if_true, if_false]
      exact mailboxListInv_aupd h (mailbox_append_le hf (src, c))
  · simp only [hl, Bool.false_eq_true, if_false]
    cases hr : alookup d st.remoteRoster with
    | none => simp only [hr]; exact h
    | some p =>
      obtain ⟨nm, hsrv⟩ := p
      simp only [hr]
      cases hroute : alookup hsrv st.routes with
      | none => simp only [hroute]; exact h
      | some path =>
        match path with
        | [] => simp only [hroute]; exact h
        | [x] => simp only [hroute]; exact h
        | x :: y :: rest => simp only [hroute]; exact h

theorem dests_mailboxInv (src : ClientId) (c : String) (ds : List ClientId) :
    ∀ st : ServerState, mailboxInv st → mailboxInv (handleDests src c ds st).2 := by
  induction ds with
  | nil => intro st h; exact h
  | cons d rest ih =>
    intro st h
    exact ih _ (single_mailboxInv st src d c h)

theorem poll_mailboxInv (st : ServerState) (c : ClientId)
    (h : mailboxInv st) : mailboxInv (clientPoll st c).2 := by
  unfold clientPoll
  by_cases hl : isLocal st c
  · simp only [hl, if_true]
    cases hq : alookup c st.mailboxes with
    | none => exact h
    | some mb =>
      match mb with
      | [] => exact h
      | (s0, c0) :: rest =>
        refine mailboxListInv_aupd h ?_
        have := h c ((s0, c0) :: rest) hq
        simp at this ⊢
        omega
  · simpa [hl] using h

theorem deliverLocal_mailboxInv (st : ServerState) (cid src : ClientId) (c : String)
    (h : mailboxInv st) : mailboxInv (deliverLocal st cid src c) := by
  unfold deliverLocal
  by_cases hf : MAILBOX_SIZE ≤ (mailboxOf st cid).length
  · simpa [hf] using h
  · simp only [hf, if_false]
    exact mailboxListInv_aupd h (mailbox_append_le hf (src, c))

theorem fqDsts_mailboxInv (src : ClientId) (srcsrv : ServerId) (c : String)
    (dsts : List (ClientId × ServerId)) :
    ∀ st : ServerState, mailboxInv st → mailboxInv (fqDsts src srcsrv c dsts st).2 := by
  induction dsts with
  | nil => intro st h; exact h
  | cons p rest ih =>
    intro st h
    obtain ⟨cid, home⟩ := p
    unfold fqDsts
    by_cases hl : isLocal st cid
    · simp only [hl, if_true]
      exact ih _ (deliverLocal_mailboxInv st cid src c h)
    · simp only [hl, Bool.false_eq_true, if_false]
      by_cases hr : (alookup cid st.remoteRoster).isSome
      · simp only [hr, if_true]
        exact ih _ h
      · simp only [hr, Bool.false_eq_true, if_false]
        exact ih _ h

theorem drainAll_fields (home : ServerId) (cl : List (ClientId × String)) :
    ∀ st : ServerState,
      (drainAll home cl st).2.self = st.self
      ∧ (drainAll home cl st).2.localRoster = st.localRoster
      ∧ (drainAll home cl st).2.remoteRoster = st.remoteRoster
      ∧ (drainAll home cl st).2.mailboxes = st.mailboxes
      ∧ (drainAll home cl st).2.edges = st.edges
      ∧ (drainAll home cl st).2.routes = st.routes
      ∧ (drainAll home cl st).2.seqs = st.seqs := by
  induction cl with
  | nil => intro st; simp [drainAll]
  | cons p rest ih =>
    intro st
    obtain ⟨cid, nm⟩ := p
    simpa [drainAll] using ih { st with holdQueue := aupd cid [] st.holdQueue }

theorem serverMsg_mailboxInv (st : ServerState) (m : ServerMessage)
    (h : mailboxInv st) : mailboxInv (handleServerMessage st m).2 := by
  cases m with
  | Announce route clients =>
    cases route with
    | nil => exact h
    | cons home t =>
      unfold mailboxInv
      simp only [handleServerMessage]
      rw [(drainAll_fields home clients _).2.2.2.1]
      exact h
  | Message fq => exact fqDsts_mailboxInv fq.src fq.srcsrv fq.content fq.dsts st h

theorem applyOp_mailboxInv (st : ServerState) (op : Op)
    (h : mailboxInv st) : mailboxInv (applyOp st op) := by
  cases op with
  | register ci cu nm id =>
    unfold applyOp registerLocalClient
    by_cases hs : (ci || cu) = true <;> simp [hs] <;> exact h
  | clientMsg src msg =>
    cases msg with
    | Text d c => exact dests_mailboxInv src c [d] st h
    | MText ds c => exact dests_mailboxInv src c ds st h
  | poll c => exact poll_mailboxInv st c h
  | seqMsg sq =>
    unfold applyOp handleSequencedMessage
    by_cases hl : isLocal st sq.src
    · by_cases hle : sq.seqid ≤ (alookup sq.src st.seqs).getD 0 <;> simp [hl, hle] <;> exact h
    · simpa [hl] using h
  | serverMsg m => exact serverMsg_mailboxInv st m h

theorem runOps_mailboxInv (ops : List Op) :
    ∀ st : ServerState, mailboxInv st → mailboxInv (ops.foldl applyOp st) := by
  induction ops with
  | nil => intro st h; exact h
  | cons op rest ih =>
    intro st h
    exact ih _ (applyOp_mailboxInv st op h)

/-- C5: in every state reachable from a fresh server, every mailbox holds at
most `MAILBOX_SIZE = 256` entries; delivering to a local destination with
fewer than 256 entries appends the message and replies `Delivered`, while
delivering to one already holding 256 replies `Error(BoxFull(d))` and leaves
the state unchanged. -/
theorem C5_mailbox_bound :
    (∀ (self : ServerId) (ops : List Op) (c : ClientId) (mb : List (ClientId × String)),
      alookup c (runOps self ops).mailboxes = some mb → mb.length ≤ MAILBOX_SIZE)
    ∧ (∀ (st : ServerState) (src d : ClientId) (content : String),
      isLocal st d = true → (mailboxOf st d).length < MAILBOX_SIZE →
      handleClientMessageSingle st src d content =
        (ClientReply.Delivered,
          { st with mailboxes := aupd d (mailboxOf st d ++ [(src, content)]) st.mailboxes }))
    ∧ (∀ (st : ServerState) (src d : ClientId) (content : String),
      isLocal st d = true → (mailboxOf st d).length = MAILBOX_SIZE →
      handleClientMessageSingle st src d content =
        (ClientReply.Error (ClientError.BoxFull d), st)) := by
  refine ⟨fun self ops c mb hmb => ?_, fun st src d content hl hlen => ?_,
    fun st src d content hl hlen => ?_⟩
  · have hinit : mailboxInv (initState self) := by
      intro c' mb' hmb'
      simp [initState, alookup] at hmb'
    exact runOps_mailboxInv ops (initState self) hinit c mb hmb
  · have hf : ¬ MAILBOX_SIZE ≤ (mailboxOf st d).length := by omega
    simp [handleClientMessageSingle, hl, hf]
  · have hf : MAILBOX_SIZE ≤ (mailboxOf st d).length := by omega
    simp [handleClientMessageSingle, hl, hf]

set_option maxRecDepth 8000 in
/-- Witness for C5: after delivering one message from client 1 to client 2 on
a fresh two-client server, client 2's mailbox holds 1 ≤ 256 entries; a
mailbox at 255 entries accepts a delivery and one at 256 refuses it. -/
theorem C5_mailbox_bound_witness :
    ([(1, "hi")] : List (ClientId × String)).length ≤ MAILBOX_SIZE
    ∧ (handleClientMessageSingle
        ⟨0, [(2, "u")], [], [(2, List.replicate 255 (1, "x"))], [], [], [], []⟩ 1 2 "y").1 =
      ClientReply.Delivered
    ∧ (handleClientMessageSingle
        ⟨0, [(2, "u")], [], [(2, List.replicate 256 (1, "x"))], [], [], [], []⟩ 1 2 "y").1 =
      ClientReply.Error (ClientError.BoxFull 2) := by
  refine ⟨?_, ?_, ?_⟩
  · exact C5_mailbox_bound.1 0
      [Op.register false false "a" 1, Op.register false false "b" 2,
        Op.clientMsg 1 (ClientMessage.Text 2 "hi")] 2 [(1, "hi")] (by decide)
  · rw [C5_mailbox_bound.2.1 ⟨0, [(2, "u")], [], [(2, List.replicate 255 (1, "x"))], [], [], [], []⟩
      1 2 "y" (by decide) (by decide)]
  · rw [C5_mailbox_bound.2.2 ⟨0, [(2, "u")], [], [(2, List.replicate 256 (1, "x"))], [], [], [], []⟩
      1 2 "y" (by decide) (by decide)]

theorem classEq_refl (st : ServerState) : classEq st st := ⟨rfl, rfl, rfl, rfl⟩

theorem classEq_trans {a b c : ServerState} (h1 : classEq a b) (h2 : classEq b c) :
    classEq a c := by
  obtain ⟨x1, x2, x3, x4⟩ := h1
  obtain ⟨y1, y2, y3, y4⟩ := h2
  exact ⟨y1.trans x1, y2.trans x2, y3.trans x3, y4.trans x4⟩

theorem single_classEq (st : ServerState) (src d : ClientId) (c : String) :
    classEq st (handleClientMessageSingle st src d c).2 := by
  unfold handleClientMessageSingle
  by_cases hl : isLocal st d
  · by_cases hf : MAILBOX_SIZE ≤ (mailboxOf st d).length
    · simp only [hl, hf, if_true]; exact classEq_refl st
    · simp only [hl, hf, if_true, if_false]; exact ⟨rfl, rfl, rfl, rfl⟩
  · simp only [hl, Bool.false_eq_true, if_false]
    cases hr : alookup d st.remoteRoster with
    | none => simp only [hr]; exact ⟨rfl, rfl, rfl, rfl⟩
    | some p =>
      obtain ⟨nm, hsrv⟩ := p
      simp only [hr]
      cases hroute : alookup hsrv st.routes with
      | none => simp only [hroute]; exact classEq_refl st
      | some path =>
        match path with
        | [] => simp only [hroute]; exact classEq_refl st
        | [x] => simp only [hroute]; exact classEq_refl st
        | x :: y :: r0 => simp only [hroute]; exact classEq_refl st

theorem single_remote (st₀ st : ServerState) (src d : ClientId) (c : String)
    (name : String) (h nh : ServerId) (rest : List ServerId)
    (hc : classEq st₀ st)
    (h1 : alookup d st₀.localRoster = none)
    (h2 : alookup d st₀.remoteRoster = some (name, h))
    (h3 : alookup h st₀.routes = some (st₀.self :: nh :: rest)) :
    handleClientMessageSingle st src d c =
      (ClientReply.Transfer nh (ServerMessage.Message ⟨src, st₀.self, [(d, h)], c⟩), st) := by
  obtain ⟨hself, hlocal, hremote, hroutes⟩ := hc
  unfold handleClientMessageSingle
  simp [isLocal, hlocal, h1, hremote, h2, hroutes, h3, hself]

theorem single_unknown (st₀ st : ServerState) (src d : ClientId) (c : String)
    (hc : classEq st₀ st)
    (h1 : alookup d st₀.localRoster = none)
    (h2 : alookup d st₀.remoteRoster = none) :
    handleClientMessageSingle st src d c =
      (ClientReply.Delayed,
        { st with holdQueue := aupd d (holdOf st d ++ [(src, c)]) st.holdQueue }) := by
  obtain ⟨hself, hlocal, hremote, hroutes⟩ := hc
  unfold handleClientMessageSingle
  simp [isLocal, hlocal, h1, hremote, h2]

theorem single_fst_nonlocal (st₀ st : ServerState) (src d : ClientId) (c : String)
    (hc : classEq st₀ st) (h1 : alookup d st₀.localRoster = none) :
    (handleClientMessageSingle st src d c).1 = (handleClientMessageSingle st₀ src d c).1 := by
  obtain ⟨hself, hlocal, hremote, hroutes⟩ := hc
  unfold handleClientMessageSingle
  simp only [isLocal, hlocal, hremote, hroutes, h1, Option.isSome_none, Bool.false_eq_true,
    if_false]
  cases hr : alookup d st₀.remoteRoster with
  | none => simp only [hr]
  | some p =>
    obtain ⟨nm, hsrv⟩ := p
    simp only [hr]
    cases hroute : alookup hsrv st₀.routes with
    | none => simp only [hroute]
    | some path =>
      match path with
      | [] => simp only [hroute]
      | [x] => simp only [hroute]
      | x :: y :: r0 => simp only [hroute, hself]

theorem dests_pos_nonlocal (src : ClientId) (c : String) (st₀ : ServerState) (d : ClientId)
    (h1 : alookup d st₀.localRoster = none) (ds : List ClientId) :
    ∀ (st : ServerState), classEq st₀ st → ∀ i, ds.get? i = some d →
      ((handleDests src c ds st).1).get? i =
        some (handleClientMessageSingle st₀ src d c).1 := by
  induction ds with
  | nil => intro st hc i hi; simp at hi
  | cons d0 rest0 ih =>
    intro st hc i hi
    cases i with
    | zero =>
      simp at hi
      subst hi
      simp only [handleDests, List.get?]
      rw [single_fst_nonlocal st₀ st src d0 c hc h1]
    | succ j =>
      simp only [List.get?] at hi
      simp only [handleDests, List.get?]
      exact ih _ (classEq_trans hc (single_classEq st src d0 c)) j hi

theorem applyClients_lookup (home : ServerId) (clients : List (ClientId × String)) :
    ∀ (roster : List (ClientId × (String × ServerId))) (cid : ClientId),
      alookup cid (applyClients home clients roster) =
        match alookup cid clients.reverse with
        | some nm => some (nm, home)
        | none => alookup cid roster := by
  induction clients with
  | nil => intro roster cid; simp [applyClients, alookup]
  | cons p rest ih =>
    intro roster cid
    obtain ⟨c0, n0⟩ := p
    rw [applyClients, ih, List.reverse_cons, alookup_append]
    cases hres : alookup cid rest.reverse with
    | some nm => simp
    | none =>
      simp only []
      by_cases hc : c0 = cid
      · subst hc
        simp [alookup, alookup_aupd]
      · simp [alookup, alookup_aupd, hc]

theorem drainAll_single (home : ServerId) (cid : ClientId) (nm : String) (st : ServerState)
    (nh : ServerId) (rest : List ServerId)
    (hroute : alookup home st.routes = some (st.self :: nh :: rest)) :
    drainAll home [(cid, nm)] st =
      ((holdOf st cid).map (fun p => ⟨nh, ⟨p.1, st.self, [(cid, home)], p.2⟩⟩),
        { st with holdQueue := aupd cid [] st.holdQueue }) := by
  simp [drainAll, hroute]

/-- C2: a destination known as remote with home server `h` (as learned from
the announcement whose route started at `h`) is answered, at its own
position, with exactly one `Transfer(nexthop, Message(...))` whose nexthop is
the second element of the stored route to `h` and whose fully qualified
message carries `src`, `srcsrv = self`, `dsts = [(d, h)]` and the content;
and an announcement with route `h' :: t` stores `h'` as the announced
clients' home server. -/
theorem C2_remote_transfer (st : ServerState) (src d : ClientId) (content name : String)
    (h nh : ServerId) (rest : List ServerId)
    (h1 : alookup d st.localRoster = none)
    (h2 : alookup d st.remoteRoster = some (name, h))
    (h3 : alookup h st.routes = some (st.self :: nh :: rest)) :
    handleClientMessage st src (ClientMessage.Text d content) =
      ([ClientReply.Transfer nh (ServerMessage.Message ⟨src, st.self, [(d, h)], content⟩)], st)
    ∧ (∀ (ds : List ClientId) (i : Nat), ds.get? i = some d →
      ((handleClientMessage st src (ClientMessage.MText ds content)).1).get? i =
        some (ClientReply.Transfer nh (ServerMessage.Message ⟨src, st.self, [(d, h)], content⟩)))
    ∧ (∀ (h' : ServerId) (t : List ServerId) (clients : List (ClientId × String)) (nm : String),
      alookup d clients.reverse = some nm →
      alookup d
          ((handleServerMessage st (ServerMessage.Announce (h' :: t) clients)).2).remoteRoster =
        some (nm, h')) := by
  have hs := single_remote st st src d content name h nh rest (classEq_refl st) h1 h2 h3
  refine ⟨?_, fun ds i hi => ?_, fun h' t clients nm hnm => ?_⟩
  · simp [handleClientMessage, handleDests, hs]
  · have hp := dests_pos_nonlocal src content st d h1 ds st (classEq_refl st) i hi
    rw [hs] at hp
    exact hp
  · simp only [handleServerMessage]
    rw [(drainAll_fields h' clients _).2.2.1]
    rw [applyClients_lookup]
    simp [hnm]

/-- Witness for C2 at a concrete state mirroring `message_to_outer_user`:
remote client 10 announced by server 1 over stored route [0,3,2,1] makes a
Text from client 20 come back as `Transfer(3, ...)`, and the announcement
stores home server 1. -/
theorem C2_remote_transfer_witness :
    handleClientMessage ⟨0, [(20, "u")], [(10, ("e", 1))], [], [], [], [(1, [0, 3, 2, 1])], []⟩
        20 (ClientMessage.Text 10 "Hello") =
      ([ClientReply.Transfer 3 (ServerMessage.Message ⟨20, 0, [(10, 1)], "Hello"⟩)],
        ⟨0, [(20, "u")], [(10, ("e", 1))], [], [], [], [(1, [0, 3, 2, 1])], []⟩)
    ∧ alookup 10
        ((handleServerMessage ⟨0, [(20, "u")], [(10, ("e", 1))], [], [], [], [(1, [0, 3, 2, 1])], []⟩
          (ServerMessage.Announce [1, 2, 3] [(10, "e")])).2).remoteRoster = some ("e", 1) := by
  constructor
  · exact (C2_remote_transfer _ 20 10 "Hello" "e" 1 3 [2, 1]
      (by decide) (by decide) (by decide)).1
  · exact (C2_remote_transfer _ 20 10 "Hello" "e" 1 3 [2, 1]
      (by decide) (by decide) (by decide)).2.2 1 [2, 3] [(10, "e")] "e" (by decide)

/-- C3: a destination that is neither local nor known-remote is answered
`Delayed` at its own position and `{src, content}` is appended to its hold
queue; a later announcement with route `h :: t` that introduces it as a
remote client drains the hold queue, emitting one Outgoing per held message
in original enqueue order, each routed to home server `h` via the stored
route's first hop after self. -/
theorem C3_delayed_then_drain (st : ServerState) (src d : ClientId) (content : String)
    (h : ServerId) (t : List ServerId) (nh : ServerId) (rest : List ServerId)
    (name : String) (held : List (ClientId × String))
    (h1 : alookup d st.localRoster = none)
    (h2 : alookup d st.remoteRoster = none)
    (hheld : holdOf st d = held) :
    (handleClientMessage st src (ClientMessage.Text d content)).1 = [ClientReply.Delayed]
    ∧ holdOf (handleClientMessage st src (ClientMessage.Text d content)).2 d =
        held ++ [(src, content)]
    ∧ (∀ (ds : List ClientId) (i : Nat), ds.get? i = some d →
      ((handleClientMessage st src (ClientMessage.MText ds content)).1).get? i =
        some ClientReply.Delayed)
    ∧ (routeTo (handleServerMessage (handleClientMessage st src (ClientMessage.Text d content)).2
          (ServerMessage.Announce (h :: t) [(d, name)])).2 h = some (st.self :: nh :: rest) →
      (handleServerMessage (handleClientMessage st src (ClientMessage.Text d content)).2
          (ServerMessage.Announce (h :: t) [(d, name)])).1 =
        ServerReply.Outgoing ((held ++ [(src, content)]).map
          (fun p => ⟨nh, ⟨p.1, st.self, [(d, h)], p.2⟩⟩))
      ∧ holdOf (handleServerMessage (handleClientMessage st src (ClientMessage.Text d content)).2
          (ServerMessage.Announce (h :: t) [(d, name)])).2 d = []) := by
  have hs := single_unknown st st src d content (classEq_refl st) h1 h2
  have hcm : handleClientMessage st src (ClientMessage.Text d content) =
      ([ClientReply.Delayed],
        { st with holdQueue := aupd d (holdOf st d ++ [(src, content)]) st.holdQueue }) := by
    simp [handleClientMessage, handleDests, hs]
  have hhold1 : holdOf { st with
      holdQueue := aupd d (holdOf st d ++ [(src, content)]) st.holdQueue } d =
      held ++ [(src, content)] := by
    simp [holdOf, alookup_aupd]
    rw [← hheld]
    rfl
  refine ⟨by rw [hcm], ?_, fun ds i hi => ?_, fun hroute => ?_⟩
  · rw [hcm]
    exact hhold1
  · have hp := dests_pos_nonlocal src content st d h1 ds st (classEq_refl st) i hi
    rw [hs] at hp
    exact hp
  · rw [hcm] at hroute ⊢
    simp only [handleServerMessage] at hroute ⊢
    rw [routeTo, (drainAll_fields h [(d, name)] _).2.2.2.2.2.1] at hroute
    rw [drainAll_single h d name _ nh rest hroute]
    constructor
    · simp only [ServerReply.Outgoing.injEq]
      rw [← hheld]
      simp [holdOf, alookup_aupd]
    · simp [holdOf, alookup_aupd]

/-- Witness for C3 mirroring `message_to_outer_user_delayed`: a Text from
client 20 to unknown client 10 is delayed and held; announcing route [1,2,3]
with client 10 drains the hold queue as one Outgoing via nexthop 3. -/
theorem C3_delayed_then_drain_witness :
    (handleClientMessage ⟨0, [(20, "u")], [], [], [], [], [], []⟩ 20
        (ClientMessage.Text 10 "Hello")).1 = [ClientReply.Delayed]
    ∧ holdOf (handleClientMessage ⟨0, [(20, "u")], [], [], [], [], [], []⟩ 20
        (ClientMessage.Text 10 "Hello")).2 10 = [(20, "Hello")]
    ∧ (handleServerMessage
        (handleClientMessage ⟨0, [(20, "u")], [], [], [], [], [], []⟩ 20
          (ClientMessage.Text 10 "Hello")).2
        (ServerMessage.Announce [1, 2, 3] [(10, "e")])).1 =
      ServerReply.Outgoing [⟨3, ⟨20, 0, [(10, 1)], "Hello"⟩⟩] := by
  have hc := C3_delayed_then_drain ⟨0, [(20, "u")], [], [], [], [], [], []⟩ 20 10 "Hello"
    1 [2, 3] 3 [2, 1] "e" [] (by decide) (by decide) (by decide)
  refine ⟨hc.1, by simpa using hc.2.1, ?_⟩
  have hd := hc.2.2.2 (by decide)
  simpa using hd.1

theorem isWalk_ne_nil {E : List (ServerId × ServerId)} {a b : ServerId} {w : List ServerId}
    (h : isWalk E a b w) : w ≠ [] := by
  intro hw
  subst hw
  simp [isWalk] at h

theorem isWalk_mono {E E' : List (ServerId × ServerId)} (hsub : ∀ e ∈ E, e ∈ E')
    {a b : ServerId} {w : List ServerId} (h : isWalk E a b w) : isWalk E' a b w :=
  ⟨h.1, h.2.1, h.2.2.imp fun u v huv => hsub (u, v) huv⟩

theorem isWalk_append_edge {E : List (ServerId × ServerId)} {a u v : ServerId}
    {w : List ServerId} (h : isWalk E a u w) (he : (u, v) ∈ E) :
    isWalk E a v (w ++ [v]) := by
  obtain ⟨h1, h2, h3⟩ := h
  have hne : w ≠ [] := by intro hw; subst hw; simp at h1
  refine ⟨?_, ?_, ?_⟩
  · rw [List.head?_append_of_ne_nil w hne, h1]
  · rw [List.getLast?_append_of_ne_nil w (by simp)]
    rfl
  · rw [List.chain'_append]
    refine ⟨h3, List.chain'_singleton v, fun x hx y hy => ?_⟩
    rw [h2] at hx
    simp at hx hy
    subst hx
    subst hy
    exact he

theorem walk_shorten_aux (E : List (ServerId × ServerId)) :
    ∀ (n : Nat) (w : List ServerId) (a b : ServerId), w.length ≤ n → isWalk E a b w →
      ∃ w', isWalk E a b w' ∧ w'.Nodup ∧ w'.length ≤ w.length ∧ ∀ y ∈ w', y ∈ w := by
  intro n
  induction n with
  | zero =>
    intro w a b hlen hw
    have hne := isWalk_ne_nil hw
    cases w with
    | nil => exact absurd rfl hne
    | cons x rest => simp at hlen
  | succ n ih =>
    intro w a b hlen hw
    cases w with
    | nil => exact absurd rfl (isWalk_ne_nil hw)
    | cons x rest =>
      have hx : x = a := by
        have := hw.1
        simp at this
        exact this
      subst hx
      by_cases hmem : x ∈ rest
      · obtain ⟨l1, l2, hsplit⟩ := List.append_of_mem hmem
        have hw1 : isWalk E x b (x :: l2) := by
          refine ⟨by simp, ?_, ?_⟩
          · have hgl := hw.2.1
            rw [hsplit] at hgl
            rw [show x :: (l1 ++ x :: l2) = (x :: l1) ++ x :: l2 by simp] at hgl
            rw [List.getLast?_append_cons] at hgl
            exact hgl
          · refine hw.2.2.suffix ?_
            rw [hsplit]
            exact ⟨x :: l1, by simp⟩
        have hlt : (x :: l2).length ≤ n := by
          have : rest.length = l1.length + l2.length + 1 := by rw [hsplit]; simp; omega
          simp at hlen ⊢
          omega
        obtain ⟨w', hw', hnd', hlen', hsub'⟩ := ih (x :: l2) x b hlt hw1
        refine ⟨w', hw', hnd', ?_, ?_⟩
        · have : rest.length = l1.length + l2.length + 1 := by rw [hsplit]; simp; omega
          simp at hlen' ⊢
          omega
        · intro y hy
          have := hsub' y hy
          simp at this
          rcases this with h | h
          · simp [h]
          · exact List.mem_cons_of_mem x
              (by rw [hsplit]; exact List.mem_append_right _ (List.mem_cons_of_mem x h))
      · cases rest with
        | nil => exact ⟨[x], hw, by simp, le_refl _, by simp⟩
        | cons y rest2 =>
          have hchain := hw.2.2
          rw [List.chain'_cons] at hchain
          have hwt : isWalk E y b (y :: rest2) := by
            refine ⟨by simp, ?_, hchain.2⟩
            have := hw.2.1
            rwa [List.getLast?_cons_cons] at this
          have hlt : (y :: rest2).length ≤ n := by simp at hlen ⊢; omega
          obtain ⟨w', hw', hnd', hlen', hsub'⟩ := ih (y :: rest2) y b hlt hwt
          obtain ⟨w'1, w'rest, hw'eq⟩ : ∃ z zs, w' = z :: zs := by
            cases w' with
            | nil => exact absurd rfl (isWalk_ne_nil hw')
            | cons z zs => exact ⟨z, zs, rfl⟩
          have hz : w'1 = y := by
            have := hw'.1
            rw [hw'eq] at this
            simp at this
            exact this
          subst hz
          subst hw'eq
          refine ⟨x :: w'1 :: w'rest, ?_, ?_, ?_, ?_⟩
          · refine ⟨by simp, ?_, ?_⟩
            · rw [List.getLast?_cons_cons]
              exact hw'.2.1
            · rw [List.chain'_cons]
              exact ⟨hchain.1, hw'.2.2⟩
          · refine List.nodup_cons.mpr ⟨?_, hnd'⟩
            intro hxin
            exact hmem (hsub' x hxin)
          · simp at hlen' ⊢
            omega
          · intro z hz
            simp at hz
            rcases hz with h | h
            · simp [h]
            · right
              exact hsub' z (by simp [h])

theorem walk_shorten {E : List (ServerId × ServerId)} {a b : ServerId} {w : List ServerId}
    (hw : isWalk E a b w) :
    ∃ w', isWalk E a b w' ∧ w'.Nodup ∧ w'.length ≤ w.length :=
  (walk_shorten_aux E w.length w a b (le_refl _) hw).imp
    fun _ h => ⟨h.1, h.2.1, h.2.2.1⟩

theorem pathEdges_subset {E : List (ServerId × ServerId)} :
    ∀ (w : List ServerId), List.Chain' (fun u v => (u, v) ∈ E) w →
      ∀ e ∈ pathEdges w, e ∈ E
  | [], _, e, he => by simp [pathEdges] at he
  | [_], _, e, he => by simp [pathEdges] at he
  | a :: b :: rest, hch, e, he => by
    rw [List.chain'_cons] at hch
    simp only [pathEdges, List.mem_cons] at he
    rcases he with h | h
    · subst h; exact hch.1
    · exact pathEdges_subset (b :: rest) hch.2 e h

theorem pathEdges_map_fst : ∀ (w : List ServerId), (pathEdges w).map Prod.fst = w.dropLast
  | [] => rfl
  | [_] => rfl
  | a :: b :: rest => by
    simp only [pathEdges, List.map_cons, pathEdges_map_fst (b :: rest)]
    rfl

theorem pathEdges_length : ∀ (w : List ServerId), (pathEdges w).length = w.length - 1
  | [] => rfl
  | [_] => rfl
  | a :: b :: rest => by
    simp only [pathEdges, List.length_cons]
    rw [pathEdges_length (b :: rest)]
    simp

theorem nodup_walk_length {E : List (ServerId × ServerId)} {a b : ServerId}
    {w : List ServerId} (hw : isWalk E a b w) (hnd : w.Nodup) :
    w.length ≤ E.length + 1 := by
  have hsub : ∀ e ∈ pathEdges w, e ∈ E := pathEdges_subset w hw.2.2
  have hndp : (pathEdges w).Nodup := by
    have hfst := pathEdges_map_fst w
    have hdl : w.dropLast.Nodup := hnd.sublist (List.dropLast_sublist w)
    rw [← hfst] at hdl
    exact hdl.of_map Prod.fst
  have hsp := (hndp.subperm fun e he => hsub e he).length_le
  have hpl := pathEdges_length w
  have hpos : 0 < w.length := List.length_pos.mpr (isWalk_ne_nil hw)
  omega

theorem relaxEdge_mono {t : List (ServerId × List ServerId)} {v : ServerId}
    {p : List ServerId} (h : alookup v t = some p) (e : ServerId × ServerId) :
    ∃ q, alookup v (relaxEdge t e) = some q ∧ q.length ≤ p.length := by
  unfold relaxEdge
  cases h1 : alookup e.1 t with
  | none => exact ⟨p, h, le_refl _⟩
  | some p1 =>
    cases h2 : alookup e.2 t with
    | none =>
      by_cases hv : e.2 = v
      · subst hv
        rw [h] at h2
        exact absurd h2 (by simp)
      · refine ⟨p, ?_, le_refl _⟩
        rw [alookup_aupd]
        simp [hv, h]
    | some q1 =>
      by_cases hcond : p1.length + 1 < q1.length
      · simp only [hcond, if_true]
        by_cases hv : e.2 = v
        · subst hv
          rw [h] at h2
          have hq1 : p = q1 := by simpa using h2
          subst hq1
          refine ⟨p1 ++ [e.2], ?_, ?_⟩
          · rw [alookup_aupd]; simp
          · simp; omega
        · refine ⟨p, ?_, le_refl _⟩
          rw [alookup_aupd]
          simp [hv, h]
      · simp only [hcond, if_false]
        exact ⟨p, h, le_refl _⟩

theorem relaxList_mono (es : List (ServerId × ServerId)) :
    ∀ (t : List (ServerId × List ServerId)) (v : ServerId) (p : List ServerId),
      alookup v t = some p →
      ∃ q, alookup v (es.foldl relaxEdge t) = some q ∧ q.length ≤ p.length := by
  induction es with
  | nil => intro t v p h; exact ⟨p, h, le_refl _⟩
  | cons e rest ih =>
    intro t v p h
    obtain ⟨q, hq, hlen⟩ := relaxEdge_mono h e
    obtain ⟨q2, hq2, hlen2⟩ := ih (relaxEdge t e) v q hq
    exact ⟨q2, hq2, hlen2.trans hlen⟩

theorem relaxRounds_succ (E : List (ServerId × ServerId)) :
    ∀ (n : Nat) (t : List (ServerId × List ServerId)),
      relaxRounds E (n + 1) t = relaxRound E (relaxRounds E n t) := by
  intro n
  induction n with
  | zero => intro t; rfl
  | succ m ih =>
    intro t
    show relaxRounds E (m + 1) (relaxRound E t) = _
    rw [ih (relaxRound E t)]
    rfl

theorem relaxRound_improves {E : List (ServerId × ServerId)}
    {t : List (ServerId × List ServerId)} {u v : ServerId} {p : List ServerId}
    (he : (u, v) ∈ E) (hu : alookup u t = some p) :
    ∃ q, alookup v (relaxRound E t) = some q ∧ q.length ≤ p.length + 1 := by
  obtain ⟨l1, l2, hE⟩ := List.append_of_mem he
  subst hE
  rw [relaxRound, List.foldl_append, List.foldl_cons]
  obtain ⟨p1, hp1, hl1⟩ := relaxList_mono l1 t u p hu
  have hstep : ∀ t1 : List (ServerId × List ServerId), alookup u t1 = some p1 →
      ∃ q, alookup v (relaxEdge t1 (u, v)) = some q ∧ q.length ≤ p1.length + 1 := by
    intro t1 hp1'
    unfold relaxEdge
    simp only [hp1']
    cases h2 : alookup v t1 with
    | none =>
      refine ⟨p1 ++ [v], ?_, by simp⟩
      rw [alookup_aupd]
      simp
    | some q1 =>
      by_cases hcond : p1.length + 1 < q1.length
      · simp only [hcond, if_true]
        refine ⟨p1 ++ [v], ?_, by simp⟩
        rw [alookup_aupd]
        simp
      · simp only [hcond, if_false]
        exact ⟨q1, h2, by omega⟩
  obtain ⟨q, hq, hql⟩ := hstep _ hp1
  obtain ⟨q2, hq2, hql2⟩ := relaxList_mono l2 _ v q hq
  exact ⟨q2, hq2, by omega⟩

theorem relaxRounds_opt (E : List (ServerId × ServerId)) (self : ServerId) :
    ∀ (j : Nat) (v : ServerId) (w : List ServerId), isWalk E self v w → w.length ≤ j + 1 →
      ∃ p, alookup v (relaxRounds E j (aupd self [self] [])) = some p ∧
        p.length ≤ w.length := by
  intro j
  induction j with
  | zero =>
    intro v w hw hlen
    obtain ⟨x, hx⟩ : ∃ x, w = [x] := by
      cases w with
      | nil => exact absurd rfl (isWalk_ne_nil hw)
      | cons x rest =>
        cases rest with
        | nil => exact ⟨x, rfl⟩
        | cons y r2 => simp at hlen
    subst hx
    have hxa : x = self := by have := hw.1; simpa using this
    have hxb : x = v := by have := hw.2.1; simpa using this
    subst hxa
    subst hxb
    refine ⟨[x], ?_, by simp⟩
    show alookup x (aupd x [x] []) = some [x]
    rw [alookup_aupd]
    simp
  | succ j ih =>
    intro v w hw hlen
    rw [relaxRounds_succ]
    by_cases hle : w.length ≤ j + 1
    · obtain ⟨p, hp, hpl⟩ := ih v w hw hle
      obtain ⟨q, hq, hql⟩ := relaxList_mono E _ v p hp
      exact ⟨q, hq, hql.trans hpl⟩
    · have hlen2 : w.length = j + 2 := by omega
      have hvlast : w.getLast? = some v := hw.2.1
      have hsplit : w.dropLast ++ [v] = w := List.dropLast_append_getLast? v hvlast
      have hwlen : w.dropLast.length = j + 1 := by
        rw [List.length_dropLast]
        omega
      have hw'ne : w.dropLast ≠ [] := by
        intro h0
        rw [h0] at hwlen
        simp at hwlen
      obtain ⟨u, hu⟩ : ∃ u, w.dropLast.getLast? = some u := by
        cases hgl : w.dropLast.getLast? with
        | none => exact absurd (List.getLast?_eq_none_iff.mp hgl) hw'ne
        | some u => exact ⟨u, rfl⟩
      have hwalk' : isWalk E self u w.dropLast := by
        refine ⟨?_, hu, ?_⟩
        · have hh := hw.1
          rw [← hsplit, List.head?_append_of_ne_nil _ hw'ne] at hh
          exact hh
        · have hc := hw.2.2.take (w.length - 1)
          rwa [← List.dropLast_eq_take] at hc
      have hedge : (u, v) ∈ E := by
        have hch := hw.2.2
        rw [← hsplit, List.chain'_append] at hch
        exact hch.2.2 u hu v (by simp)
      obtain ⟨p, hp, hpl⟩ := ih u w.dropLast hwalk' (by omega)
      obtain ⟨q, hq, hql⟩ := relaxRound_improves hedge hp
      exact ⟨q, hq, by omega⟩

theorem relaxEdge_sound {E : List (ServerId × ServerId)} {self : ServerId}
    {t : List (ServerId × List ServerId)} {e : ServerId × ServerId}
    (he : e ∈ E) (ht : ∀ v p, alookup v t = some p → isWalk E self v p) :
    ∀ v p, alookup v (relaxEdge t e) = some p → isWalk E self v p := by
  intro v p hp
  unfold relaxEdge at hp
  cases h1 : alookup e.1 t with
  | none =>
    simp only [h1] at hp
    exact ht v p hp
  | some p1 =>
    simp only [h1] at hp
    have hnew : isWalk E self e.2 (p1 ++ [e.2]) := by
      have hwu := ht e.1 p1 h1
      have he2 : (e.1, e.2) ∈ E := by simpa using he
      exact isWalk_append_edge hwu he2
    cases h2 : alookup e.2 t with
    | none =>
      simp only [h2] at hp
      rw [alookup_aupd] at hp
      by_cases hv : e.2 = v
      · simp only [hv, if_true] at hp
        have hpv : p = p1 ++ [v] := by simpa using hp.symm
        subst hpv
        rw [hv] at hnew
        exact hnew
      · simp only [hv, if_false] at hp
        exact ht v p hp
    | some q1 =>
      simp only [h2] at hp
      by_cases hcond : p1.length + 1 < q1.length
      · simp only [hcond, if_true] at hp
        rw [alookup_aupd] at hp
        by_cases hv : e.2 = v
        · simp only [hv, if_true] at hp
          have hpv : p = p1 ++ [v] := by simpa using hp.symm
          subst hpv
          rw [hv] at hnew
          exact hnew
        · simp only [hv, if_false] at hp
          exact ht v p hp
      · simp only [hcond, if_false] at hp
        exact ht v p hp

theorem relaxList_sound {E : List (ServerId × ServerId)} {self : ServerId} :
    ∀ (es : List (ServerId × ServerId)) (t : List (ServerId × List ServerId)),
      (∀ e ∈ es, e ∈ E) →
      (∀ v p, alookup v t = some p → isWalk E self v p) →
      ∀ v p, alookup v (es.foldl relaxEdge t) = some p → isWalk E self v p := by
  intro es
  induction es with
  | nil => intro t _ ht v p hp; exact ht v p hp
  | cons e rest ih =>
    intro t hes ht v p hp
    exact ih (relaxEdge t e) (fun e' he' => hes e' (by simp [he']))
      (relaxEdge_sound (hes e (by simp)) ht) v p hp

theorem relaxRounds_sound {E : List (ServerId × ServerId)} {self : ServerId} :
    ∀ (j : Nat) (t : List (ServerId × List ServerId)),
      (∀ v p, alookup v t = some p → isWalk E self v p) →
      ∀ v p, alookup v (relaxRounds E j t) = some p → isWalk E self v p := by
  intro j
  induction j with
  | zero => intro t ht v p hp; exact ht v p hp
  | succ j ih =>
    intro t ht v p hp
    exact ih (relaxRound E t) (relaxList_sound E t (fun _ h => h) ht) v p hp

theorem bf_sound (E : List (ServerId × ServerId)) (self : ServerId) :
    ∀ v p, alookup v (bfRoutes self E) = some p → isWalk E self v p := by
  intro v p hp
  refine relaxRounds_sound (E.length + 1) (aupd self [self] []) ?_ v p hp
  intro v' p' hp'
  rw [alookup_aupd] at hp'
  by_cases hv : self = v'
  · subst hv
    simp at hp'
    subst hp'
    exact ⟨rfl, rfl, List.chain'_singleton self⟩
  · simp [hv, alookup] at hp'

theorem bf_opt (E : List (ServerId × ServerId)) (self : ServerId)
    {v : ServerId} {w : List ServerId} (hw : isWalk E self v w) :
    ∃ p, alookup v (bfRoutes self E) = some p ∧ p.length ≤ w.length := by
  obtain ⟨w', hw', hnd, hlen⟩ := walk_shorten hw
  have hwl := nodup_walk_length hw' hnd
  obtain ⟨p, hp, hpl⟩ := relaxRounds_opt E self (E.length + 1) v w' hw' (by omega)
  exact ⟨p, hp, by omega⟩

theorem mem_insertIfAbsent {α : Type} [DecidableEq α] (x y : α) (l : List α) :
    x ∈ insertIfAbsent y l ↔ x = y ∨ x ∈ l := by
  unfold insertIfAbsent
  by_cases h : y ∈ l
  · simp only [h, if_true]
    constructor
    · exact fun hx => Or.inr hx
    · rintro (rfl | hx)
      · exact h
      · exact hx
  · simp only [h, if_false, List.mem_append, List.mem_singleton]
    tauto

theorem subset_addAll {α : Type} [DecidableEq α] (xs : List α) :
    ∀ (l : List α), ∀ x ∈ l, x ∈ addAll xs l := by
  induction xs with
  | nil => intro l x hx; exact hx
  | cons y rest ih =>
    intro l x hx
    exact ih (insertIfAbsent y l) x ((mem_insertIfAbsent x y l).mpr (Or.inr hx))

theorem mem_addAll_of_mem {α : Type} [DecidableEq α] (xs : List α) :
    ∀ (l : List α), ∀ x ∈ xs, x ∈ addAll xs l := by
  induction xs with
  | nil => intro l x hx; simp at hx
  | cons y rest ih =>
    intro l x hx
    rcases List.mem_cons.mp hx with rfl | hx'
    · exact subset_addAll rest (insertIfAbsent x l) x
        ((mem_insertIfAbsent x x l).mpr (Or.inl rfl))
    · exact ih (insertIfAbsent y l) x hx'

theorem addAll_eq_of_subset {α : Type} [DecidableEq α] (xs : List α) :
    ∀ (l : List α), (∀ x ∈ xs, x ∈ l) → addAll xs l = l := by
  induction xs with
  | nil => intro l _; rfl
  | cons y rest ih =>
    intro l hsub
    have hy : insertIfAbsent y l = l := by
      unfold insertIfAbsent
      simp [hsub y (by simp)]
    show addAll rest (insertIfAbsent y l) = l
    rw [hy]
    exact ih l fun x hx => hsub x (by simp [hx])

theorem chain_pathEdges : ∀ (l : List ServerId),
    List.Chain' (fun u v => (u, v) ∈ pathEdges l) l
  | [] => List.chain'_nil
  | [x] => List.chain'_singleton x
  | a :: b :: rest => by
    rw [List.chain'_cons]
    refine ⟨by simp [pathEdges], ?_⟩
    exact (chain_pathEdges (b :: rest)).imp fun u v huv => by simp [pathEdges, huv]

theorem getLast?_take_idxOf (s : Nat) : ∀ (l : List Nat), s ∈ l →
    (l.take (idxOf s l + 1)).getLast? = some s := by
  intro l
  induction l with
  | nil => intro h; simp at h
  | cons x rest ih =>
    intro h
    by_cases hx : x = s
    · subst hx
      simp [idxOf]
    · have hrest : s ∈ rest := by
        rcases List.mem_cons.mp h with rfl | h'
        · exact absurd rfl hx
        · exact h'
      simp only [idxOf, hx, if_false]
      rw [List.take_succ_cons]
      have hne : rest.take (idxOf s rest + 1) ≠ [] := by
        cases rest with
        | nil => simp at hrest
        | cons y t => simp [List.take_succ_cons]
      obtain ⟨y, t, hyt⟩ := List.exists_cons_of_ne_nil hne
      rw [hyt, List.getLast?_cons_cons, ← hyt]
      exact ih hrest

theorem candidate_walk (self : ServerId) (route : List ServerId) (s : ServerId)
    (hs : s ∈ route) (E : List (ServerId × ServerId))
    (hsub : ∀ e ∈ pathEdges (self :: route.reverse), e ∈ E) :
    isWalk E self s (self :: route.reverse.take (idxOf s route.reverse + 1)) := by
  have hsrev : s ∈ route.reverse := List.mem_reverse.mpr hs
  refine ⟨by simp, ?_, ?_⟩
  · have htake := getLast?_take_idxOf s route.reverse hsrev
    have hne : route.reverse.take (idxOf s route.reverse + 1) ≠ [] := by
      intro h0
      rw [h0] at htake
      simp at htake
    obtain ⟨y, t, hyt⟩ := List.exists_cons_of_ne_nil hne
    rw [hyt, List.getLast?_cons_cons, ← hyt]
    exact htake
  · have hchain := (chain_pathEdges (self :: route.reverse)).imp
      fun u v huv => hsub (u, v) huv
    have hc2 := hchain.take (idxOf s route.reverse + 1 + 1)
    rwa [List.take_succ_cons] at hc2

theorem announce_state (st : ServerState) (home : ServerId) (t : List ServerId)
    (clients : List (ClientId × String)) :
    ((handleServerMessage st (ServerMessage.Announce (home :: t) clients)).2).self = st.self
    ∧ ((handleServerMessage st (ServerMessage.Announce (home :: t) clients)).2).edges =
        addAll (announceEdges st.self (home :: t)) st.edges
    ∧ ((handleServerMessage st (ServerMessage.Announce (home :: t) clients)).2).routes =
        bfRoutes st.self (addAll (announceEdges st.self (home :: t)) st.edges) := by
  simp only [handleServerMessage]
  refine ⟨?_, ?_, ?_⟩
  · rw [(drainAll_fields home clients _).1]
  · rw [(drainAll_fields home clients _).2.2.2.2.1]
  · rw [(drainAll_fields home clients _).2.2.2.2.2.1]

/-- C1 (amended): after an Announce with non-empty route, every server id `s`
of the route has a stored route-table entry, and that entry is a path from
self to `s` of minimal length over the topology accumulated from all
announcements — in particular no longer than the incumbent entry and no
longer than the candidate `[self] ++ reverse(route)[0..=k]` (`k` the index of
`s` in the reversed route); re-applying the same announcement leaves all
stored paths unchanged, and `route_to(s)` returns exactly the stored path,
which begins with self and ends with `s`. -/
theorem C1_routing_amended (st : ServerState) (route : List ServerId)
    (clients : List (ClientId × String)) (s : ServerId)
    (hs : s ∈ route) (hsound : routesSound st) :
    (∃ p, routeTo (handleServerMessage st (ServerMessage.Announce route clients)).2 s = some p
      ∧ isWalk ((handleServerMessage st (ServerMessage.Announce route clients)).2).edges
          st.self s p
      ∧ p.head? = some st.self ∧ p.getLast? = some s
      ∧ (∀ w, isWalk ((handleServerMessage st (ServerMessage.Announce route clients)).2).edges
          st.self s w → p.length ≤ w.length)
      ∧ p.length ≤ (st.self :: route.reverse.take (idxOf s route.reverse + 1)).length
      ∧ (∀ q, alookup s st.routes = some q → p.length ≤ q.length))
    ∧ ((handleServerMessage (handleServerMessage st (ServerMessage.Announce route clients)).2
        (ServerMessage.Announce route clients)).2).routes =
      ((handleServerMessage st (ServerMessage.Announce route clients)).2).routes
    ∧ routeTo (handleServerMessage st (ServerMessage.Announce route clients)).2 s =
      alookup s ((handleServerMessage st (ServerMessage.Announce route clients)).2).routes := by
  cases route with
  | nil => simp at hs
  | cons home t =>
    obtain ⟨hself1, hedges1, hroutes1⟩ := announce_state st home t clients
    have hsubE : ∀ e ∈ pathEdges (st.self :: (home :: t).reverse), e ∈
        addAll (announceEdges st.self (home :: t)) st.edges := by
      intro e he
      refine mem_addAll_of_mem _ _ e ?_
      unfold announceEdges
      exact List.mem_append_left _ he
    have hstsub : ∀ e ∈ st.edges, e ∈ addAll (announceEdges st.self (home :: t)) st.edges :=
      fun e he => subset_addAll _ _ e he
    have hcand := candidate_walk st.self (home :: t) s hs
      (addAll (announceEdges st.self (home :: t)) st.edges) hsubE
    obtain ⟨p, hp, hpl⟩ := bf_opt (addAll (announceEdges st.self (home :: t)) st.edges)
      st.self hcand
    refine ⟨⟨p, ?_, ?_, ?_, ?_, ?_, ?_, ?_⟩, ?_, rfl⟩
    · rw [routeTo, hroutes1]
      exact hp
    · rw [hedges1]
      exact bf_sound _ st.self s p hp
    · exact (bf_sound _ st.self s p hp).1
    · exact (bf_sound _ st.self s p hp).2.1
    · intro w hw
      rw [hedges1] at hw
      obtain ⟨p', hp', hple⟩ := bf_opt _ st.self hw
      rw [hp] at hp'
      have hpp : p = p' := by simpa using hp'
      rw [hpp]
      exact hple
    · exact hpl
    · intro q hq
      have hmem := alookup_mem s st.routes q hq
      have hwq : isWalk st.edges st.self s q := hsound (s, q) hmem
      have hwq' := isWalk_mono hstsub hwq
      obtain ⟨p', hp', hple⟩ := bf_opt _ st.self hwq'
      rw [hp] at hp'
      have hpp : p = p' := by simpa using hp'
      rw [hpp]
      exact hple
    · obtain ⟨hself2, hedges2, hroutes2⟩ := announce_state
        ((handleServerMessage st (ServerMessage.Announce (home :: t) clients)).2)
        home t clients
      rw [hroutes2, hroutes1, hself1, hedges1]
      rw [addAll_eq_of_subset _ _ fun e he => mem_addAll_of_mem _ _ e he]

set_option maxRecDepth 4000 in
/-- Witness for C1 (amended) on the `routing_test2` topology: after the first
announcement `[7,6,2,3,4,5]`, re-announcing `[5,4,7,6,2,1]` exercises every
conjunct at server 7 with all hypotheses discharged on concrete data. -/
theorem C1_routing_amended_witness :
    (∃ p, routeTo (handleServerMessage
        ((handleServerMessage (initState 0)
          (ServerMessage.Announce [7, 6, 2, 3, 4, 5] [(100, "user")])).2)
        (ServerMessage.Announce [5, 4, 7, 6, 2, 1] [])).2 7 = some p
      ∧ isWalk ((handleServerMessage
          ((handleServerMessage (initState 0)
            (ServerMessage.Announce [7, 6, 2, 3, 4, 5] [(100, "user")])).2)
          (ServerMessage.Announce [5, 4, 7, 6, 2, 1] [])).2).edges
          ((handleServerMessage (initState 0)
            (ServerMessage.Announce [7, 6, 2, 3, 4, 5] [(100, "user")])).2).self 7 p
      ∧ p.head? = some ((handleServerMessage (initState 0)
          (ServerMessage.Announce [7, 6, 2, 3, 4, 5] [(100, "user")])).2).self
      ∧ p.getLast? = some 7
      ∧ (∀ w, isWalk ((handleServerMessage
          ((handleServerMessage (initState 0)
            (ServerMessage.Announce [7, 6, 2, 3, 4, 5] [(100, "user")])).2)
          (ServerMessage.Announce [5, 4, 7, 6, 2, 1] [])).2).edges
          ((handleServerMessage (initState 0)
            (ServerMessage.Announce [7, 6, 2, 3, 4, 5] [(100, "user")])).2).self 7 w →
          p.length ≤ w.length)
      ∧ p.length ≤ (((handleServerMessage (initState 0)
          (ServerMessage.Announce [7, 6, 2, 3, 4, 5] [(100, "user")])).2).self ::
            ([5, 4, 7, 6, 2, 1] : List ServerId).reverse.take
              (idxOf 7 ([5, 4, 7, 6, 2, 1] : List ServerId).reverse + 1)).length
      ∧ (∀ q, alookup 7 ((handleServerMessage (initState 0)
          (ServerMessage.Announce [7, 6, 2, 3, 4, 5] [(100, "user")])).2).routes = some q →
          p.length ≤ q.length)) := by
  exact (C1_routing_amended
    ((handleServerMessage (initState 0)
      (ServerMessage.Announce [7, 6, 2, 3, 4, 5] [(100, "user")])).2)
    [5, 4, 7, 6, 2, 1] [] 7 (by decide) (by decide)).1

set_option maxRecDepth 4000 in
/-- Counterexample to C1 as stated: on the `routing_test2` scenario of
`src/chatproto/src/testing.rs` (announce `[7,6,2,3,4,5]`, then announce
`[5,4,7,6,2,1]`), the claimed update rule — stored entry for s7 becomes the
shorter of the incumbent and the candidate `[self] ++ reverse(route)[0..=k]`
— would store `[0,1,2,6,7]`, but the repository's `routing_test2` requires
`route_to(s7) = [0,5,4,7]`, which the server indeed stores: the two disagree,
so the claimed rule is false on the code. -/
theorem C1_routing_counterexample :
    alookup 7 ((handleServerMessage
        ((handleServerMessage (initState 0)
          (ServerMessage.Announce [7, 6, 2, 3, 4, 5] [(100, "user")])).2)
        (ServerMessage.Announce [5, 4, 7, 6, 2, 1] [])).2).routes = some [0, 5, 4, 7]
    ∧ shorterOf (alookup 7 ((handleServerMessage (initState 0)
          (ServerMessage.Announce [7, 6, 2, 3, 4, 5] [(100, "user")])).2).routes)
        (0 :: ([5, 4, 7, 6, 2, 1] : List ServerId).reverse.take
          (idxOf 7 ([5, 4, 7, 6, 2, 1] : List ServerId).reverse + 1)) = [0, 1, 2, 6, 7]
    ∧ ([0, 1, 2, 6, 7] : List ServerId) ≠ [0, 5, 4, 7] := by
  refine ⟨by decide, by decide, by decide⟩

end Chat
